import Mathlib

/-!
Shallow embedding of the matrix-recurrence core of the `bergman` repository
(`src/bergman/modeling_convnet.py` and `src/bergman/modeling_bergman.py`).

The two files contain the same recurrence mechanism (Bergman's
`BergmanMatrixLayer.calculatte_vectors` is textually identical to Convnet's
`ConvnetMatrixLayer.calculate_vectors`); the definitions below embed this
shared code once.

Modelling conventions:
- tensors of shape `[batch*head, dim, 1]` become functions
  `Fin B → Fin H → Fin d → K`; the position-major matrix tensor
  `[T, B, head, dim, dim]` becomes `Fin T → Fin B → Fin H → Matrix (Fin d) (Fin d) K`;
- the floating-point scalar type is embedded as an arbitrary linear ordered
  field `K` (instantiated at `ℝ`, or at `ℚ` for concrete evaluations); the
  numeric library's square-root primitive (`torch.norm`, `math.sqrt`) is a
  parameter `g : K → K`, instantiated with `Real.sqrt` at `K = ℝ`;
- a Python loop that appends to a `history` list becomes structural
  recursion over the list of visited positions;
- fallible Python code (`raise KeyError`, failing `assert`, `TypeError`)
  becomes `Option`/`Except PyError`.
-/

/-- Error values raised by the embedded Python code. -/
inductive PyError : Type
  | assertionError (msg : String)
  | typeError (msg : String)
  | keyError
deriving DecidableEq

/-- State vectors: the tensor of shape `[batch*head, dim, 1]` holding one
`dim`-component state vector per (batch, head) pair. -/
abbrev Vec (K : Type) (B H d : ℕ) := Fin B → Fin H → Fin d → K

/-- The position-major normalized matrix tensor `[T, batch*head, dim, dim]`. -/
abbrev Mats (K : Type) (B H d : ℕ) := Fin B → Fin H → Matrix (Fin d) (Fin d) K

/-- An attention mask entry per position and batch element (the layer reads
`attention_mask[..., i]`, which broadcasts one scalar per batch element over
all heads and vector components). -/
abbrev MaskT (K : Type) (B T : ℕ) := Fin T → Fin B → K

variable {K : Type} [LinearOrderedField K]

/-- The L2 norm `torch.norm(new_v, dim=-2)` of one state vector, with the
square root `g` passed in as the numeric library's primitive. -/
def l2norm (g : K → K) {d : ℕ} (w : Fin d → K) : K :=
  g (∑ j, w j ^ 2)

/-- One un-masked update of `calculate_vectors`:
`new_v = torch.bmm(m[i], v)` followed, when `norm_vectors` is set, by
`new_v = new_v / (torch.norm(new_v, dim=-2, keepdim=True) + self.vector_norm_eps)`. -/
def stepVector (g : K → K) {B H d : ℕ} (norm_vectors : Bool) (eps : K)
    (mi : Mats K B H d) (v : Vec K B H d) : Vec K B H d :=
  let new_v : Vec K B H d := fun b h => (mi b h).mulVec (v b h)
  if norm_vectors then
    fun b h j => new_v b h j / (l2norm g (new_v b h) + eps)
  else new_v

/-- The value appended to `history` for the step consuming position `i`:
the masked blend
`new_v * attention_mask[..., i] + v * (1 - attention_mask[..., i])`
when a mask is supplied, the raw update otherwise. -/
def appendStep (g : K → K) {B H d : ℕ} (norm_vectors : Bool) (eps : K)
    (mi : Mats K B H d) (mask_i : Option (Fin B → K)) (v : Vec K B H d) :
    Vec K B H d :=
  let new_v := stepVector g norm_vectors eps mi v
  match mask_i with
  | some μ => fun b h j => new_v b h j * μ b + v b h j * (1 - μ b)
  | none => new_v

/-- The body of the `for i in order:` loop of `calculate_vectors`, as
structural recursion over the list of visited positions.  The returned list
is the sequence of values appended to `history`; the carried `v` is only
replaced by the appended value when `accumulate` is set (`v = history[-1]`). -/
def propagate (g : K → K) {B H d T : ℕ} (m : Fin T → Mats K B H d)
    (mask : Option (MaskT K B T)) (accumulate norm_vectors : Bool) (eps : K) :
    List (Fin T) → Vec K B H d → List (Vec K B H d)
  | [], _ => []
  | i :: rest, v =>
    let appended := appendStep g norm_vectors eps (m i) (mask.map (fun μ => μ i)) v
    appended ::
      propagate g m mask accumulate norm_vectors eps rest
        (if accumulate then appended else v)

/-- The initial state of `calculate_vectors`: for `"one"` the first standard
basis vector (`v[..., 0, :] = 1` on a zero tensor), for `"all"` the constant
vector `1 / math.sqrt(matrix_dim)`; any other `init_type` raises `KeyError`
(modelled as `none`). -/
def init_vector (K : Type) [LinearOrderedField K] (g : K → K) (B H d : ℕ)
    (init_type : String) : Option (Vec K B H d) :=
  if init_type = "one" then
    some (fun _ _ j => if (j : ℕ) = 0 then 1 else 0)
  else if init_type = "all" then
    some (fun _ _ _ => 1 / g (d : K))
  else none

/-- The iteration order of the scan: `range(context_sz)` forward, or
`reversed(range(context_sz))` when `reverse_direction` is set. -/
def scanOrder (T : ℕ) (reverse_direction : Bool) : List (Fin T) :=
  if reverse_direction then (List.finRange T).reverse else List.finRange T

/-- ConvnetMatrixLayer.calculate_vectors (identical to
BergmanMatrixLayer.calculatte_vectors): builds `history = [v]` and appends
one state per visited position, returning the full history.  The
`hidden_states` argument of the Python function is used only for its shape
and device, so it is dropped; its shape parameters `B` and `T` appear as
dimensions.  `none` models the `KeyError` raised on an unknown `init_type`. -/
def calculate_vectors (g : K → K) {B H d T : ℕ} (m : Fin T → Mats K B H d)
    (mask : Option (MaskT K B T)) (accumulate : Bool) (init_type : String)
    (reverse_direction norm_vectors : Bool) (eps : K) :
    Option (List (Vec K B H d)) :=
  (init_vector K g B H d init_type).map fun v =>
    v :: propagate g m mask accumulate norm_vectors eps
      (scanOrder T reverse_direction) v

theorem propagate_length (g : K → K) {B H d T : ℕ} (m : Fin T → Mats K B H d)
    (mask : Option (MaskT K B T)) (a nv : Bool) (e : K)
    (ord : List (Fin T)) (v : Vec K B H d) :
    (propagate g m mask a nv e ord v).length = ord.length := by
  induction ord generalizing v with
  | nil => rfl
  | cons i rest ih => simp [propagate, ih]

theorem scanOrder_length (T : ℕ) (r : Bool) : (scanOrder T r).length = T := by
  cases r <;> simp [scanOrder]

/-- With `accumulate` set, each history entry is obtained from the previous
one by the (masked) step at the corresponding visited position. -/
theorem propagate_get_succ (g : K → K) {B H d T : ℕ} (m : Fin T → Mats K B H d)
    (mask : Option (MaskT K B T)) (nv : Bool) (e : K)
    (ord : List (Fin T)) (v : Vec K B H d) (j : ℕ) (hj : j < ord.length) :
    (v :: propagate g m mask true nv e ord v).get
        ⟨j + 1, by simpa [propagate_length] using Nat.succ_lt_succ hj⟩ =
      appendStep g nv e (m (ord.get ⟨j, hj⟩))
        (mask.map fun μ => μ (ord.get ⟨j, hj⟩))
        ((v :: propagate g m mask true nv e ord v).get
          ⟨j, by simp [propagate_length]; omega⟩) := by
  induction ord generalizing v j with
  | nil => exact absurd hj (Nat.not_lt_zero j)
  | cons i rest ih =>
    cases j with
    | zero => simp [propagate]
    | succ k =>
      have hk : k < rest.length := Nat.lt_of_succ_lt_succ hj
      have h := ih (appendStep g nv e (m i) (mask.map fun μ => μ i) v) k hk
      simpa [propagate] using h

/-- C1: for every input of batch size B and sequence length T, the
vector-propagation routine returns a history of exactly T+1 state vectors
whose index 0 is the initial vector; with accumulation on, no attention mask
and no re-normalization, entry i+1 of the forward scan is `matrix[i] @ entry i`,
and with `norm_vectors` on each new state is instead that product divided by
its L2 norm along the state axis plus `vector_norm_eps`. -/
theorem C1_vector_propagation
    {B H d T : ℕ} (m : Fin T → Mats ℝ B H d) (mask : Option (MaskT ℝ B T))
    (a r nv : Bool) (e : ℝ) (it : String) (v : Vec ℝ B H d)
    (hist : List (Vec ℝ B H d))
    (h0 : init_vector ℝ Real.sqrt B H d it = some v)
    (h1 : calculate_vectors Real.sqrt m mask a it r nv e = some hist) :
    hist.length = T + 1 ∧ hist.head? = some v ∧
      (a = true → mask = none → r = false → ∀ i : Fin T,
        (nv = false →
          hist[(i : ℕ) + 1]? =
            (hist[(i : ℕ)]?).map fun p => fun b h => (m i b h).mulVec (p b h)) ∧
        (nv = true →
          hist[(i : ℕ) + 1]? =
            (hist[(i : ℕ)]?).map fun p => fun b h j =>
              (m i b h).mulVec (p b h) j /
                (Real.sqrt (∑ q, (m i b h).mulVec (p b h) q ^ 2) + e))) := by
  have hhist : hist = v :: propagate Real.sqrt m mask a nv e (scanOrder T r) v := by
    rw [calculate_vectors, h0] at h1
    simpa using h1.symm
  subst hhist
  refine ⟨by simp [propagate_length, scanOrder_length], rfl, ?_⟩
  rintro rfl rfl rfl i
  have hj : (i : ℕ) < (scanOrder T false).length := by
    simp [scanOrder_length]
  have hj1 : (i : ℕ) + 1 <
      (v :: propagate Real.sqrt m none true nv e (scanOrder T false) v).length := by
    simp [propagate_length, scanOrder_length]
  have hj0 : (i : ℕ) <
      (v :: propagate Real.sqrt m none true nv e (scanOrder T false) v).length := by
    simp [propagate_length, scanOrder_length]
    omega
  have hget := propagate_get_succ Real.sqrt m none nv e (scanOrder T false) v i hj
  have hord : (scanOrder T false).get ⟨(i : ℕ), hj⟩ = i := by
    simp only [scanOrder, if_neg Bool.false_ne_true]
    simp [List.get_finRange]
  rw [hord] at hget
  have hsome1 :
      (v :: propagate Real.sqrt m none true nv e (scanOrder T false) v)[(i : ℕ) + 1]? =
        some ((v :: propagate Real.sqrt m none true nv e (scanOrder T false) v).get
          ⟨(i : ℕ) + 1, hj1⟩) := by
    rw [List.getElem?_eq_getElem hj1]; rfl
  have hsome0 :
      (v :: propagate Real.sqrt m none true nv e (scanOrder T false) v)[(i : ℕ)]? =
        some ((v :: propagate Real.sqrt m none true nv e (scanOrder T false) v).get
          ⟨(i : ℕ), hj0⟩) := by
    rw [List.getElem?_eq_getElem hj0]; rfl
  constructor
  · rintro rfl
    rw [hsome1, hsome0, hget]
    rfl
  · rintro rfl
    rw [hsome1, hsome0, hget]
    rfl

/-- A concrete one-position matrix sequence used to instantiate C1. -/
def c1m : Fin 1 → Mats ℝ 1 1 1 := fun _ _ _ => Matrix.of fun _ _ => 2

/-- A concrete initial vector: `init_vector` at `init_type = "one"`. -/
def c1v : Vec ℝ 1 1 1 := fun _ _ j => if (j : ℕ) = 0 then 1 else 0

theorem C1_vector_propagation_witness :
    (calculate_vectors (K := ℝ) Real.sqrt c1m none true "one" false false 0).map
      List.length = some 2 := by
  cases hcv : calculate_vectors (K := ℝ) Real.sqrt c1m none true "one" false false 0 with
  | none =>
    exact absurd hcv (by simp [calculate_vectors, init_vector])
  | some hist =>
    obtain ⟨h, -, -⟩ :=
      C1_vector_propagation c1m none true false false 0 "one" c1v hist
        rfl hcv
    simp [h]

/-- A concrete two-position matrix sequence (every matrix is the 1×1 matrix 2). -/
def c2m : Fin 2 → Mats ℚ 1 1 1 := fun _ _ _ => Matrix.of fun _ _ => 2

/-- A concrete attention mask: all ones except a 0 at position `k = 0`. -/
def c2mask : MaskT ℚ 1 2 := fun i _ => if (i : ℕ) = 0 then 0 else 1

/-- C2 as stated is false: with the mask `[0, 1]` (all ones except a 0 at
position k = 0), the propagated state at position 1 ≥ k (history entry 2)
differs from the state at position k-1 (the initial state, history entry 0):
the step at the masked position is suppressed, but later unmasked steps keep
updating the state. -/
theorem C2_counterexample :
    ((calculate_vectors (K := ℚ) id c2m (some c2mask) true "one" false false 0).bind
        (fun l => l[2]?)).map (fun p => p 0 0 0) ≠
      ((calculate_vectors (K := ℚ) id c2m (some c2mask) true "one" false false 0).bind
        (fun l => l[0]?)).map (fun p => p 0 0 0) := by
  have hso : scanOrder 2 false = [0, 1] := by decide
  simp only [calculate_vectors, init_vector, if_pos rfl, hso, propagate, appendStep,
    stepVector, l2norm, c2m, c2mask, Option.map_some, Option.some_bind]
  norm_num [Matrix.mulVec, Matrix.dotProduct, c2mask]

/-- C2 (amended): in an accumulating scan of either direction, history entry
j+1 is the blend `new*mask + old*(1-mask)` with the mask entry taken at the
position k consumed at step j; in particular, when the mask is 0 at position
k, the entry recorded after the step consuming k equals the entry before it
(the update is suppressed exactly at the masked step). -/
theorem C2_masked_step_holds (g : K → K) {B H d T : ℕ}
    (m : Fin T → Mats K B H d) (μ : MaskT K B T) (r nv : Bool) (e : K)
    (it : String) (hist : List (Vec K B H d)) (j : ℕ) (k : Fin T)
    (hsj : j < (scanOrder T r).length)
    (hk : (scanOrder T r).get ⟨j, hsj⟩ = k)
    (h1 : calculate_vectors g m (some μ) true it r nv e = some hist) :
    hist[j + 1]? = (hist[j]?).map (fun p => fun b h q =>
        stepVector g nv e (m k) p b h q * μ k b + p b h q * (1 - μ k b)) ∧
    ((∀ b, μ k b = 0) → hist[j + 1]? = hist[j]?) := by
  obtain ⟨v, -, rfl⟩ := Option.map_eq_some'.mp h1
  have hj1 : j + 1 <
      (v :: propagate g m (some μ) true nv e (scanOrder T r) v).length := by
    simp [propagate_length]
    omega
  have hj0 : j <
      (v :: propagate g m (some μ) true nv e (scanOrder T r) v).length := by
    simp [propagate_length]
    omega
  have hget := propagate_get_succ g m (some μ) nv e (scanOrder T r) v j hsj
  rw [hk] at hget
  have hsome1 :
      (v :: propagate g m (some μ) true nv e (scanOrder T r) v)[j + 1]? =
        some ((v :: propagate g m (some μ) true nv e (scanOrder T r) v).get
          ⟨j + 1, hj1⟩) := by
    rw [List.getElem?_eq_getElem hj1]; rfl
  have hsome0 :
      (v :: propagate g m (some μ) true nv e (scanOrder T r) v)[j]? =
        some ((v :: propagate g m (some μ) true nv e (scanOrder T r) v).get
          ⟨j, hj0⟩) := by
    rw [List.getElem?_eq_getElem hj0]; rfl
  have hblend : (v :: propagate g m (some μ) true nv e (scanOrder T r) v)[j + 1]? =
      ((v :: propagate g m (some μ) true nv e (scanOrder T r) v)[j]?).map
        (fun p => fun b h q =>
          stepVector g nv e (m k) p b h q * μ k b + p b h q * (1 - μ k b)) := by
    rw [hsome1, hsome0, hget]
    rfl
  refine ⟨hblend, fun hz => ?_⟩
  rw [hblend, hsome0]
  refine congrArg some ?_
  funext b h q
  simp [hz b]

theorem C2_masked_step_holds_witness :
    (calculate_vectors (K := ℚ) id c2m (some c2mask) true "one" false false 0).bind
        (fun l => l[1]?) =
      (calculate_vectors (K := ℚ) id c2m (some c2mask) true "one" false false 0).bind
        (fun l => l[0]?) := by
  cases hcv : calculate_vectors (K := ℚ) id c2m (some c2mask) true "one" false false 0 with
  | none => exact absurd hcv (by simp [calculate_vectors, init_vector])
  | some hist =>
    obtain ⟨-, hz⟩ :=
      C2_masked_step_holds (K := ℚ) id c2m c2mask false false 0 "one" hist 0 0
        (by simp [scanOrder_length]) (by decide) hcv
    simpa using hz (by norm_num [c2mask])

theorem propagate_reindex (g : K → K) {B H d T : ℕ} (m : Fin T → Mats K B H d)
    (a nv : Bool) (e : K) (σ : Fin T → Fin T) (ord : List (Fin T))
    (v : Vec K B H d) :
    propagate g (fun i => m (σ i)) none a nv e ord v =
      propagate g m none a nv e (ord.map σ) v := by
  induction ord generalizing v with
  | nil => rfl
  | cons i rest ih => simp [propagate, ih]

theorem finRange_reverse_eq_map_rev (T : ℕ) :
    (List.finRange T).reverse = (List.finRange T).map Fin.rev := by
  apply List.ext_getElem
  · simp
  · intro i h1 h2
    simp only [List.getElem_reverse, List.getElem_map, List.getElem_finRange]
    apply Fin.ext
    simp only [Fin.val_rev, Fin.coe_cast, List.length_finRange]
    simp at h1 h2
    omega

/-- A concrete one-position matrix sequence (the 1×1 matrix 2). -/
def c3m : Fin 1 → Mats ℚ 1 1 1 := fun _ _ _ => Matrix.of fun _ _ => 2

/-- C3 as stated is false: running the backward scan on the reversed matrix
sequence already reproduces the forward history, so additionally reversing
the resulting history breaks the equality (here `[2,1] ≠ [1,2]`). -/
theorem C3_counterexample :
    (((calculate_vectors (K := ℚ) id (fun i => c3m i.rev) none true "one" true false 0).map
        List.reverse).bind (fun l => l[0]?)).map (fun p => p 0 0 0) ≠
      ((calculate_vectors (K := ℚ) id c3m none true "one" false false 0).bind
        (fun l => l[0]?)).map (fun p => p 0 0 0) := by
  have hso1 : scanOrder 1 true = [0] := by decide
  have hso0 : scanOrder 1 false = [0] := by decide
  simp only [calculate_vectors, init_vector, if_pos rfl, hso1, hso0, propagate,
    appendStep, stepVector, l2norm, c3m, Option.map_some, Option.some_bind]
  norm_num [Matrix.mulVec, Matrix.dotProduct]

/-- C3 (amended): for the same initial vector and no masking, the backward
scan on the reversed matrix sequence equals the forward scan on the original
matrix sequence entry for entry — no reversal of the history is needed. -/
theorem C3_direction_symmetry (g : K → K) {B H d T : ℕ}
    (m : Fin T → Mats K B H d) (a nv : Bool) (e : K) (it : String) :
    calculate_vectors g (fun i => m i.rev) none a it true nv e =
      calculate_vectors g m none a it false nv e := by
  unfold calculate_vectors
  cases hi : init_vector K g B H d it with
  | none => rfl
  | some v =>
    simp only [Option.map_some']
    refine congrArg some (congrArg (v :: ·) ?_)
    rw [propagate_reindex]
    have hord : (scanOrder T true).map Fin.rev = scanOrder T false := by
      show ((List.finRange T).reverse).map Fin.rev = List.finRange T
      rw [finRange_reverse_eq_map_rev, List.map_map]
      have hcmp : (Fin.rev ∘ Fin.rev : Fin T → Fin T) = id := by
        funext x
        simp [Function.comp, Fin.rev_rev]
      rw [hcmp, List.map_id]
    rw [hord]

/-- The `local` context view: `v_local = v_local[1:]` applied to the
non-accumulated history (the slice dropping the initial state). -/
def localView {α : Type} (hist : List α) : List α := hist.drop 1

/-- The `local_r` context view: `v_local_shift_r = v_local[:-1]` applied to
the non-accumulated history. -/
def localShiftR {α : Type} (hist : List α) : List α := hist.dropLast

/-- The `local_l` context view: `v_local_shift_l = v_local[2:] + [v_local[0]]`
applied to the non-accumulated history (`take 1` equals `[v_local[0]]` since
the history always contains at least the initial state). -/
def localShiftL {α : Type} (hist : List α) : List α := hist.drop 2 ++ hist.take 1

/-- Concrete matrices for the local-shift counterexample: matrix 2 at
position 0 and matrix 3 at position 1. -/
def c6m : Fin 2 → Mats ℚ 1 1 1 :=
  fun i _ _ => Matrix.of fun _ _ => if (i : ℕ) = 0 then 2 else 3

/-- C6 as stated is false: at the sequence boundary the wrapped entries of
`local_l` and `local_r` hold the propagator's initial state (history index 0),
not the local value of the opposite end of the sequence: here the local view
is `[2, 3]`, while `local_l = [3, 1]` and `local_r = [1, 2]`. -/
theorem C6_counterexample :
    (((calculate_vectors (K := ℚ) id c6m none false "one" false false 0).map
        localShiftL).bind (fun l => l[1]?)).map (fun p => p 0 0 0) ≠
      (((calculate_vectors (K := ℚ) id c6m none false "one" false false 0).map
        localView).bind (fun l => l[0]?)).map (fun p => p 0 0 0) ∧
    (((calculate_vectors (K := ℚ) id c6m none false "one" false false 0).map
        localShiftR).bind (fun l => l[0]?)).map (fun p => p 0 0 0) ≠
      (((calculate_vectors (K := ℚ) id c6m none false "one" false false 0).map
        localView).bind (fun l => l[1]?)).map (fun p => p 0 0 0) := by
  have hso : scanOrder 2 false = [0, 1] := by decide
  constructor <;>
    · simp only [calculate_vectors, init_vector, if_pos rfl, hso, propagate,
        appendStep, stepVector, l2norm, c6m, Option.map_some', Option.some_bind]
      norm_num [localView, localShiftL, localShiftR, Matrix.mulVec,
        Matrix.dotProduct]

/-- C6 (amended): `local_l` and `local_r` are the `local` view shifted one
position left and right; at the boundary, `local_l` at the last position and
`local_r` at the first position both hold history entry 0 — the propagator's
initial state vector — rather than the opposite end's local value. -/
theorem C6_local_shift_views (g : K → K) {B H d T : ℕ}
    (m : Fin T → Mats K B H d) (mask : Option (MaskT K B T)) (r nv : Bool)
    (e : K) (it : String) (v : Vec K B H d) (hist : List (Vec K B H d))
    (h0 : init_vector K g B H d it = some v)
    (h1 : calculate_vectors g m mask false it r nv e = some hist) :
    (∀ i : ℕ, i + 1 < T → (localShiftL hist)[i]? = (localView hist)[i + 1]?) ∧
    (∀ i : ℕ, i + 1 < T → (localShiftR hist)[i + 1]? = (localView hist)[i]?) ∧
    (localShiftL hist)[T - 1]? = some v ∧
    (0 < T → (localShiftR hist)[0]? = some v) := by
  have hhist : hist = v :: propagate g m mask false nv e (scanOrder T r) v := by
    rw [calculate_vectors, h0] at h1
    simpa using h1.symm
  have hlen : hist.length = T + 1 := by
    rw [hhist]
    simp [propagate_length, scanOrder_length]
  have hdrop2 : (hist.drop 2).length = T - 1 := by
    simp [hlen]
  refine ⟨?_, ?_, ?_, ?_⟩
  · intro i hi
    simp only [localShiftL, localView, List.getElem?_append, List.getElem?_drop,
      hdrop2, if_pos (by omega : i < T - 1)]
    congr 1
    omega
  · intro i hi
    simp only [localShiftR, localView, List.dropLast_eq_take, List.getElem?_take,
      List.getElem?_drop, hlen, if_pos (by omega : i + 1 < T + 1 - 1)]
    congr 1
    omega
  · simp only [localShiftL, List.getElem?_append, hdrop2,
      if_neg (by omega : ¬(T - 1 < T - 1)), List.getElem?_take,
      if_pos (by omega : T - 1 - (T - 1) < 1), Nat.sub_self]
    rw [hhist]
    simp
  · intro hT
    simp only [localShiftR, List.dropLast_eq_take, List.getElem?_take, hlen,
      if_pos (by omega : 0 < T + 1 - 1)]
    rw [hhist]
    simp

theorem C6_local_shift_views_witness :
    ((calculate_vectors (K := ℚ) id c6m none false "one" false false 0).map
        localShiftR).bind (fun l => l[0]?) =
      some ((fun _ _ j => if (j : ℕ) = 0 then 1 else 0 : Vec ℚ 1 1 1)) := by
  cases hcv : calculate_vectors (K := ℚ) id c6m none false "one" false false 0 with
  | none => exact absurd hcv (by simp [calculate_vectors, init_vector])
  | some hist =>
    obtain ⟨-, -, -, hb⟩ :=
      C6_local_shift_views (K := ℚ) id c6m none false false 0 "one" _ hist rfl hcv
    simp [hb (by norm_num)]

open Matrix

/-- torch.sign: 1 for positive, -1 for negative, 0 for zero entries. -/
def sgn (x : K) : K := if 0 < x then 1 else if x < 0 then -1 else 0

theorem sgn_mul_self (x : K) : sgn x * x = |x| := by
  rcases lt_trichotomy x 0 with h | h | h
  · rw [sgn, if_neg (not_lt.mpr h.le), if_pos h, abs_of_neg h]
    ring
  · simp [sgn, h]
  · rw [sgn, if_pos h, abs_of_pos h, one_mul]

theorem sgn_mul_sgn (x : K) (hx : x ≠ 0) : sgn x * sgn x = 1 := by
  rcases lt_trichotomy x 0 with h | h | h
  · rw [sgn, if_neg (not_lt.mpr h.le), if_pos h]
    ring
  · exact absurd h hx
  · rw [sgn, if_pos h]
    ring

/-- ConvnetMatrixEncoder.make_orthogonal (identical to
BergmanMatrixLayer.make_orthogonal), with the batched QR factors `q`, `r`
produced by the external primitive `torch.linalg.qr` passed in as inputs:
`s = diag_embed(sign(diagonal(r)))`, `r = s @ r`, `q = q @ s`,
`d = diagonal(r)`, and the returned matrix is `q * (d / d.abs())` broadcast
over columns.  The QR contract (`z = q @ r`, `q` orthogonal, `r` upper
triangular) appears as hypotheses of the theorems below. -/
def make_orthogonal {n : ℕ} (q r : Matrix (Fin n) (Fin n) K) :
    Matrix (Fin n) (Fin n) K :=
  let s : Matrix (Fin n) (Fin n) K := Matrix.diagonal fun i => sgn (r i i)
  let r2 := s * r
  let q2 := q * s
  Matrix.of fun i j => q2 i j * (r2 j j / |r2 j j|)

/-- Upper triangularity of the R factor of a QR decomposition: entries below
the main diagonal vanish. -/
def upperT {n : ℕ} (r : Matrix (Fin n) (Fin n) K) : Prop :=
  ∀ i j : Fin n, (j : ℕ) < (i : ℕ) → r i j = 0

theorem upperT_decide {n : ℕ} {F : Type} [LinearOrderedField F] [DecidableEq F]
    (r : Matrix (Fin n) (Fin n) F) : upperT r ↔
      ∀ i j : Fin n, (j : ℕ) < (i : ℕ) → r i j = 0 := Iff.rfl

/-- An upper-triangular matrix with orthonormal columns is diagonal with
diagonal entries of square one. -/
theorem upperT_orthogonal {n : ℕ} (r : Matrix (Fin n) (Fin n) K)
    (hut : upperT r) (h : rᵀ * r = 1) :
    ∀ i : Fin n, (∀ j, j ≠ i → r i j = 0) ∧ r i i * r i i = 1 := by
  have hentry : ∀ a b : Fin n,
      ∑ k, r k a * r k b = (1 : Matrix (Fin n) (Fin n) K) a b := by
    intro a b
    have hcongr := congrArg (fun M => M a b) h
    simpa [Matrix.mul_apply, Matrix.transpose_apply] using hcongr
  suffices key : ∀ m : ℕ, ∀ i : Fin n, (i : ℕ) = m →
      ((∀ j, j ≠ i → r i j = 0) ∧ r i i * r i i = 1) by
    intro i
    exact key i i rfl
  intro m
  induction m using Nat.strong_induction_on with
  | _ m IH =>
    intro i him
    have IH2 : ∀ i2 : Fin n, (i2 : ℕ) < (i : ℕ) →
        ((∀ j, j ≠ i2 → r i2 j = 0) ∧ r i2 i2 * r i2 i2 = 1) := by
      intro i2 hlt
      exact IH (i2 : ℕ) (him ▸ hlt) i2 rfl
    have hzero_col : ∀ k, k ≠ i → r k i = 0 := by
      intro k hk
      rcases Nat.lt_trichotomy (k : ℕ) (i : ℕ) with hlt | heq | hgt
      · exact (IH2 k hlt).1 i (Ne.symm hk)
      · exact absurd (Fin.ext heq) hk
      · exact hut k i hgt
    have hii : r i i * r i i = 1 := by
      have hs := hentry i i
      rw [Finset.sum_eq_single i] at hs
      · simpa [Matrix.one_apply_eq] using hs
      · intro b _ hb
        rw [hzero_col b hb]
        ring
      · intro hb
        exact absurd (Finset.mem_univ i) hb
    have hne : r i i ≠ 0 := by
      intro h0
      rw [h0] at hii
      norm_num at hii
    refine ⟨?_, hii⟩
    intro j hj
    rcases Nat.lt_trichotomy (j : ℕ) (i : ℕ) with hlt | heq | hgt
    · exact hut i j hlt
    · exact absurd (Fin.ext heq) hj
    · have hs := hentry i j
      rw [Finset.sum_eq_single i] at hs
      · rw [Matrix.one_apply_ne (Ne.symm hj)] at hs
        exact (mul_eq_zero.mp hs).resolve_left hne
      · intro b _ hb
        rw [hzero_col b hb]
        ring
      · intro hb
        exact absurd (Finset.mem_univ i) hb

theorem make_orthogonal_eq_q_mul_sign {n : ℕ} (q r : Matrix (Fin n) (Fin n) K)
    (hne : ∀ i, r i i ≠ 0) :
    make_orthogonal q r = q * Matrix.diagonal (fun i => sgn (r i i)) := by
  ext i j
  show (q * Matrix.diagonal (fun i => sgn (r i i))) i j *
      ((Matrix.diagonal (fun i => sgn (r i i)) * r) j j /
        |(Matrix.diagonal (fun i => sgn (r i i)) * r) j j|) =
    (q * Matrix.diagonal (fun i => sgn (r i i))) i j
  rw [Matrix.diagonal_mul, sgn_mul_self, abs_abs,
    div_self (abs_ne_zero.mpr (hne j)), mul_one]

/-- C4 as stated is false for singular inputs: `q = 1, r = 0` is a valid QR
factorization of the zero matrix (`0 = 1 * 0`, `1` orthogonal, `0` upper
triangular), yet `sign(0) = 0` zeroes out every column of the returned Q, so
`Q @ Q^T` is the zero matrix, not the identity. -/
theorem C4_counterexample :
    ((0 : Matrix (Fin 2) (Fin 2) ℚ) = 1 * 0 ∧
      (1 : Matrix (Fin 2) (Fin 2) ℚ)ᵀ * 1 = 1 ∧
      upperT (0 : Matrix (Fin 2) (Fin 2) ℚ)) ∧
    make_orthogonal (1 : Matrix (Fin 2) (Fin 2) ℚ) 0 *
        (make_orthogonal (1 : Matrix (Fin 2) (Fin 2) ℚ) 0)ᵀ ≠ 1 := by
  have hzero : make_orthogonal (1 : Matrix (Fin 2) (Fin 2) ℚ) 0 = 0 := by
    ext i j
    simp [make_orthogonal, sgn]
  refine ⟨⟨by simp, by simp, fun i j _ => rfl⟩, ?_⟩
  rw [hzero]
  intro heq
  have h00 := congrArg (fun M => M 0 0) heq
  simp [Matrix.one_apply_eq] at h00

/-- C4 (amended): given a QR factorization `z = q * r` (`q` orthogonal, `r`
upper triangular) whose R factor has nonzero diagonal — in particular for
every invertible input — the returned Q satisfies `Q * Qᵀ = 1`; and applied
to an already-orthogonal matrix `z`, `make_orthogonal` returns `z` itself
(the sign fix makes the decomposition unique). -/
theorem C4_make_orthogonal {n : ℕ} (z q r : Matrix (Fin n) (Fin n) K)
    (hz : z = q * r) (hq : qᵀ * q = 1) (hut : upperT r) :
    ((∀ i, r i i ≠ 0) →
      make_orthogonal q r * (make_orthogonal q r)ᵀ = 1) ∧
    (zᵀ * z = 1 → make_orthogonal q r = z) := by
  have hqqT : q * qᵀ = 1 := Matrix.mul_eq_one_comm.mp hq
  constructor
  · intro hne
    rw [make_orthogonal_eq_q_mul_sign q r hne, Matrix.transpose_mul,
      Matrix.diagonal_transpose, Matrix.mul_assoc, ← Matrix.mul_assoc
        (Matrix.diagonal fun i => sgn (r i i)), Matrix.diagonal_mul_diagonal]
    have hone : (Matrix.diagonal fun i => sgn (r i i) * sgn (r i i)) =
        (1 : Matrix (Fin n) (Fin n) K) := by
      rw [show (fun i => sgn (r i i) * sgn (r i i)) = fun _ : Fin n => (1 : K) from
        funext fun i => sgn_mul_sgn (r i i) (hne i), Matrix.diagonal_one]
    rw [hone, Matrix.one_mul, hqqT]
  · intro hzz
    have hr : r = qᵀ * z := by
      rw [hz, ← Matrix.mul_assoc, hq, Matrix.one_mul]
    have hrr : rᵀ * r = 1 := by
      rw [hr, Matrix.transpose_mul, Matrix.transpose_transpose, Matrix.mul_assoc,
        ← Matrix.mul_assoc q, hqqT, Matrix.one_mul, hzz]
    have hdiag := upperT_orthogonal r hut hrr
    have hne : ∀ i, r i i ≠ 0 := by
      intro i h0
      have h1 := (hdiag i).2
      rw [h0] at h1
      norm_num at h1
    have hs_eq : (Matrix.diagonal fun i => sgn (r i i)) = r := by
      ext i j
      by_cases hij : i = j
      · subst hij
        rw [Matrix.diagonal_apply_eq]
        rcases mul_self_eq_one_iff.mp (hdiag i).2 with h1 | h1 <;>
          rw [h1] <;> norm_num [sgn]
      · rw [Matrix.diagonal_apply_ne _ hij]
        exact ((hdiag i).1 j (fun hji => hij hji.symm)).symm
    rw [make_orthogonal_eq_q_mul_sign q r hne, hs_eq, ← hz]

theorem C4_make_orthogonal_witness :
    make_orthogonal (K := ℚ) (1 : Matrix (Fin 2) (Fin 2) ℚ) 1 *
        (make_orthogonal (1 : Matrix (Fin 2) (Fin 2) ℚ) 1)ᵀ = 1 ∧
      make_orthogonal (K := ℚ) (1 : Matrix (Fin 2) (Fin 2) ℚ) 1 = 1 := by
  obtain ⟨h1, h2⟩ :=
    C4_make_orthogonal (1 : Matrix (Fin 2) (Fin 2) ℚ) 1 1 (by simp) (by simp)
      (fun i j hji => Matrix.one_apply_ne (by
        intro hij
        rw [hij] at hji
        exact lt_irrefl _ hji))
  exact ⟨h1 (fun i => by simp), h2 (by simp)⟩

/-- The loss/preheat logic of one ConvnetForMaskedLM.forward (identical in
BergmanForMaskedLM.forward) call with labels present or absent: the masked-LM
cross-entropy value `t` and the already-weighted sum `a` of the auxiliary
matrix losses are inputs; when labels are present and `preheat_counter > 0`
the counter is decremented and the reported task loss replaced by 0; the
first component is `some (masked_lm_loss, loss)` as reported (none without
labels), the second the new counter (a Python int, hence `ℤ`). -/
def preheatForward (c : ℤ) (labels : Bool) (t a : ℚ) : Option (ℚ × ℚ) × ℤ :=
  if labels then
    if 0 < c then (some (0, 0 + a), c - 1)
    else (some (t, t + a), c)
  else (none, c)

/-- The preheat counter after `k` forward calls with labels present, starting
from `matrix_norm_preheat_steps = N`, with task-loss stream `t` and
auxiliary-loss stream `a`. -/
def preheatRun (N : ℤ) (t a : ℕ → ℚ) : ℕ → ℤ
  | 0 => N
  | k + 1 => (preheatForward (preheatRun N t a k) true (t k) (a k)).2

theorem preheatRun_eq (N : ℕ) (t a : ℕ → ℚ) (k : ℕ) :
    preheatRun (N : ℤ) t a k = ((N - min k N : ℕ) : ℤ) := by
  induction k with
  | zero => simp [preheatRun]
  | succ k ih =>
    rw [preheatRun, preheatForward, if_pos rfl, ih]
    by_cases h : k < N
    · rw [if_pos (by omega)]
      omega
    · rw [if_neg (by omega)]
      omega

/-- C5: with `matrix_norm_preheat_steps = N`, each of the first N forward
calls with labels reports masked-LM loss 0 while the total loss keeps the
auxiliary terms; the (N+1)-th call reports the raw task loss (nonzero
whenever that cross-entropy value is nonzero); and the counter is
monotonically non-increasing, never negative, and is 0 from call N on. -/
theorem C5_preheat_schedule (N : ℕ) (t a : ℕ → ℚ) :
    (∀ k : ℕ, k < N →
      (preheatForward (preheatRun (N : ℤ) t a k) true (t k) (a k)).1 =
        some (0, 0 + a k)) ∧
    (preheatForward (preheatRun (N : ℤ) t a N) true (t N) (a N)).1 =
        some (t N, t N + a N) ∧
    (t N ≠ 0 →
      ((preheatForward (preheatRun (N : ℤ) t a N) true (t N) (a N)).1.map
        Prod.fst) ≠ some 0) ∧
    (∀ k : ℕ, preheatRun (N : ℤ) t a (k + 1) ≤ preheatRun (N : ℤ) t a k) ∧
    (∀ k : ℕ, 0 ≤ preheatRun (N : ℤ) t a k) ∧
    (∀ k : ℕ, N ≤ k → preheatRun (N : ℤ) t a k = 0) := by
  refine ⟨?_, ?_, ?_, ?_, ?_, ?_⟩
  · intro k hk
    rw [preheatForward, if_pos rfl, preheatRun_eq,
      if_pos (by omega : (0 : ℤ) < ((N - min k N : ℕ) : ℤ))]
  · rw [preheatForward, if_pos rfl, preheatRun_eq,
      if_neg (by omega : ¬(0 : ℤ) < ((N - min N N : ℕ) : ℤ))]
  · intro ht
    rw [preheatForward, if_pos rfl, preheatRun_eq,
      if_neg (by omega : ¬(0 : ℤ) < ((N - min N N : ℕ) : ℤ))]
    simpa using ht
  · intro k
    rw [preheatRun_eq, preheatRun_eq]
    omega
  · intro k
    rw [preheatRun_eq]
    omega
  · intro k hk
    rw [preheatRun_eq]
    omega

theorem C5_preheat_schedule_witness :
    (preheatForward (preheatRun ((2 : ℕ) : ℤ) (fun _ => 1) (fun _ => 5) 0)
        true 1 5).1 = some (0, 0 + 5) ∧
    (preheatForward (preheatRun ((2 : ℕ) : ℤ) (fun _ => 1) (fun _ => 5) 2)
        true 1 5).1 = some (1, 1 + 5) ∧
    preheatRun ((2 : ℕ) : ℤ) (fun _ => 1) (fun _ => 5) 3 = 0 := by
  obtain ⟨h1, h2, -, -, -, h6⟩ :=
    C5_preheat_schedule 2 (fun _ => 1) (fun _ => 5)
  exact ⟨h1 0 (by norm_num), h2, h6 3 (by norm_num)⟩

/-- The denominator of the `"det"` normalization branch:
`d.abs() ** (1 / self.matrix_dim) + self.matrix_norm_eps` with `d` the
(detached) determinant of one matrix; `**` on the non-negative base `|d|` is
real exponentiation. -/
noncomputable def det_norm_denom (n : ℕ) (e : ℝ) (m : Matrix (Fin n) (Fin n) ℝ) : ℝ :=
  |m.det| ^ ((1 : ℝ) / n) + e

/-- The `"det"` normalization `m_norm = m / (d.abs() ** (1/dim) + eps)` of
ConvnetMatrixEncoder.forward / BergmanMatrixLayer.predict_matrix (the
`detach()` only stops gradients and does not change the value). -/
noncomputable def det_normalize (n : ℕ) (e : ℝ) (m : Matrix (Fin n) (Fin n) ℝ) :
    Matrix (Fin n) (Fin n) ℝ :=
  Matrix.of fun i j => m i j / det_norm_denom n e m

/-- C8: for every matrix (including singular ones), the det-normalization
denominator `|det|^(1/dim) + eps` is strictly positive whenever
`matrix_norm_eps > 0`, so the division is by a nonzero number and the
normalized matrix exactly satisfies `m_norm * denom = m` (finite output for
finite input, no division by zero). -/
theorem C8_det_normalization {n : ℕ} (m : Matrix (Fin n) (Fin n) ℝ) (e : ℝ)
    (he : 0 < e) :
    0 < det_norm_denom n e m ∧
      ∀ i j, det_normalize n e m i j * det_norm_denom n e m = m i j := by
  have hpow : 0 ≤ |m.det| ^ ((1 : ℝ) / n) :=
    Real.rpow_nonneg (abs_nonneg _) _
  have hpos : 0 < det_norm_denom n e m := by
    rw [det_norm_denom]
    linarith
  refine ⟨hpos, fun i j => ?_⟩
  show m i j / det_norm_denom n e m * det_norm_denom n e m = m i j
  exact div_mul_cancel₀ _ (ne_of_gt hpos)

theorem C8_det_normalization_witness :
    0 < det_norm_denom 2 1 (0 : Matrix (Fin 2) (Fin 2) ℝ) ∧
      det_normalize 2 1 (0 : Matrix (Fin 2) (Fin 2) ℝ) 0 0 *
        det_norm_denom 2 1 (0 : Matrix (Fin 2) (Fin 2) ℝ) =
      (0 : Matrix (Fin 2) (Fin 2) ℝ) 0 0 := by
  obtain ⟨hp, hm⟩ :=
    C8_det_normalization (0 : Matrix (Fin 2) (Fin 2) ℝ) 1 (by norm_num)
  exact ⟨hp, hm 0 0⟩

/-- The four `assert ... is None, "Not implemented"` guards at the top of
ConvnetMatrixLayer.forward (encoder_hidden_states, encoder_attention_mask,
head_mask, past_vector); a failing Python assert raises AssertionError with
the given message. -/
def matrixLayerGuards {X Y Z W : Type} (ehs : Option X) (eam : Option Y)
    (hm : Option Z) (pv : Option W) : Except PyError Unit :=
  if ehs.isSome then Except.error (PyError.assertionError "Not implemented")
  else if eam.isSome then Except.error (PyError.assertionError "Not implemented")
  else if hm.isSome then Except.error (PyError.assertionError "Not implemented")
  else if pv.isSome then Except.error (PyError.assertionError "Not implemented")
  else Except.ok ()

/-- The statement `raise NotImplemented()` in ConvnetEncoder.forward: in
Python `NotImplemented` is a non-callable constant (not an exception class),
so evaluating `NotImplemented()` raises `TypeError`, not
`NotImplementedError`. -/
def raiseNotImplementedConstant : Except PyError Unit :=
  Except.error (PyError.typeError "NotImplementedType object is not callable")

/-- The per-layer loop of ConvnetEncoder.forward over `L` layers: each layer
first runs the matrix-layer asserts, computes the new hidden states (the
numeric layer body is the abstract `f`), and then the encoder executes
`if use_cache: raise NotImplemented()`. -/
def encoderLayersLoop {S X Y Z W : Type} (f : ℕ → S → S) (use_cache : Bool)
    (ehs : Option X) (eam : Option Y) (hm : Option Z) (pv : Option W) :
    ℕ → S → Except PyError S
  | 0, s => Except.ok s
  | L + 1, s =>
    match matrixLayerGuards ehs eam hm pv with
    | Except.error err => Except.error err
    | Except.ok _ =>
      let s2 := f L s
      if use_cache then
        Except.error (PyError.typeError "NotImplementedType object is not callable")
      else
        encoderLayersLoop f use_cache ehs eam hm pv L s2

/-- The use_cache resolution of ConvnetModel.forward: in decoder
configuration the argument defaults to `config.use_cache`; otherwise
use_cache is forced to False. -/
def resolve_use_cache (is_decoder : Bool) (arg : Option Bool) (cfg : Bool) : Bool :=
  if is_decoder then arg.getD cfg else false

/-- C9 (code evaluation): in decoder configuration with `config.use_cache`
 set and the argument left at its default, use_cache resolves to true and the
encoder fails on the first layer — but with a TypeError from calling the
`NotImplemented` constant, not a NotImplementedError; a non-None past_vector
makes the matrix layer fail with AssertionError "Not implemented". -/
theorem C9_cache_errors {S : Type} (f : ℕ → S → S) (s : S) (L : ℕ)
    (hL : 0 < L) :
    resolve_use_cache true none true = true ∧
    encoderLayersLoop f true (none : Option Unit) (none : Option Unit)
        (none : Option Unit) (none : Option Unit) L s =
      Except.error (PyError.typeError "NotImplementedType object is not callable") ∧
    ∀ u : Bool, ∀ p : Unit,
      encoderLayersLoop f u (none : Option Unit) (none : Option Unit)
          (none : Option Unit) (some p) L s =
        Except.error (PyError.assertionError "Not implemented") := by
  refine ⟨rfl, ?_, ?_⟩
  · cases L with
    | zero => exact absurd hL (lt_irrefl 0)
    | succ L2 => rfl
  · intro u p
    cases L with
    | zero => exact absurd hL (lt_irrefl 0)
    | succ L2 => rfl

theorem C9_cache_errors_witness :
    resolve_use_cache true none true = true ∧
    encoderLayersLoop (fun _ t => t) true (none : Option Unit)
        (none : Option Unit) (none : Option Unit) (none : Option Unit) 1 () =
      Except.error (PyError.typeError "NotImplementedType object is not callable") := by
  obtain ⟨h1, h2, -⟩ :=
    C9_cache_errors (fun _ t => t) () 1 (by norm_num)
  exact ⟨h1, h2⟩

/-- A context-view tensor `[batch, position, head, features]` with the
feature axis as a list (so that concatenation along the feature axis is list
concatenation), indexed position-first for convenience. -/
abbrev ViewTen (K : Type) (T B H : ℕ) := Fin T → Fin B → Fin H → List K

/-- A Python value stored in the `available_vectors` dict: a tensor, or the
1-tuple `(v_local,)` that line 1664 of modeling_convnet.py (line 980 of
modeling_bergman.py) actually assigns for the `"local"` key. -/
inductive PyVal (V : Type) : Type
  | tensor (t : V)
  | tuple1 (t : V)

/-- torch.concatenate type-checks each element of its argument: a tensor is
accepted, a tuple raises TypeError. -/
def pyvalTensor {V : Type} : PyVal V → Except PyError V
  | PyVal.tensor t => Except.ok t
  | PyVal.tuple1 _ => Except.error (PyError.typeError "expected Tensor as element in argument 0")

/-- prepare_history_tensor: a history slice of length T stacked into a
`[batch, position, head, dim]` tensor, with the dim axis as a feature list.
The default is never read because every caller indexes within range. -/
def histView {K : Type} [LinearOrderedField K] {B H d : ℕ} (T : ℕ)
    (hist : List (Vec K B H d)) : ViewTen K T B H :=
  fun p b h => List.ofFn ((hist.getD (p : ℕ) (fun _ _ _ => 0)) b h)

/-- The three guarded blocks of ConvnetMatrixLayer.forward that populate
`available_vectors` from the requested context views: the lr group (forward
accumulating scan; `global` broadcasts the last state), the rl group
(backward accumulating scan, slices reversed back to natural order), and the
local group (forward non-accumulating scan with the three shifted slices).
The `"local"` entry is stored as the 1-tuple `(v_local,)` exactly as in the
source; a `KeyError` from `calculate_vectors` propagates. -/
def available_vectors (g : K → K) {B H d T : ℕ}
    (mn_lr mn_rl : Fin T → Mats K B H d) (mask : Option (MaskT K B T))
    (it : String) (nv : Bool) (e : K) (use : List String) :
    Except PyError (List (String × PyVal (ViewTen K T B H))) := do
  let p1 ←
    if (["global", "lr", "lr_excl"] : List String).any (fun s => use.contains s) then
      match calculate_vectors g mn_lr mask true it false nv e with
      | none => Except.error PyError.keyError
      | some v_lr =>
        Except.ok [("lr_excl", PyVal.tensor (histView T (v_lr.dropLast))),
          ("lr", PyVal.tensor (histView T (v_lr.drop 1))),
          ("global", PyVal.tensor
            (fun _ b h => List.ofFn ((v_lr.getLastD (fun _ _ _ => 0)) b h)))]
    else Except.ok []
  let p2 ←
    if (["rl", "rl_excl"] : List String).any (fun s => use.contains s) then
      match calculate_vectors g mn_rl mask true it true nv e with
      | none => Except.error PyError.keyError
      | some v_rl =>
        Except.ok [("rl", PyVal.tensor (histView T ((v_rl.drop 1).reverse))),
          ("rl_excl", PyVal.tensor (histView T ((v_rl.dropLast).reverse)))]
    else Except.ok []
  let p3 ←
    if (["local", "local_l", "local_r"] : List String).any (fun s => use.contains s) then
      match calculate_vectors g mn_lr mask false it false nv e with
      | none => Except.error PyError.keyError
      | some v_local =>
        Except.ok [("local", PyVal.tuple1 (histView T (localView v_local))),
          ("local_r", PyVal.tensor (histView T (localShiftR v_local))),
          ("local_l", PyVal.tensor (histView T (localShiftL v_local)))]
    else Except.ok []
  Except.ok (p1 ++ p2 ++ p3)

/-- `context = [available_vectors[s] for s in self.use_for_context]`: dict
lookup per requested view, KeyError on a missing key. -/
def lookup_context {V : Type} (dict : List (String × PyVal V))
    (use : List String) : Except PyError (List (PyVal V)) :=
  use.mapM fun s =>
    match dict.lookup s with
    | some v => Except.ok v
    | none => Except.error PyError.keyError

/-- `x = torch.concatenate(context, axis=-1)`: every element must be a
tensor (a tuple element raises TypeError), and the feature axes are
concatenated position-wise. -/
def torch_concatenate {K : Type} [LinearOrderedField K] {T B H : ℕ}
    (vals : List (PyVal (ViewTen K T B H))) : Except PyError (ViewTen K T B H) := do
  let ts ← vals.mapM pyvalTensor
  Except.ok (fun p b h => (ts.map (fun x => x p b h)).flatten)

/-- The context/matrix plumbing of ConvnetMatrixLayer.forward: the second
matrix encoder is used for the rl scan only when `rl_lr_matrix_different`,
the raw (un-normalized) matrices of the two encoders are concatenated along
the position axis in that case, and the raw matrices are returned only when
`output_matrices` is requested.  The per-head projection networks and the
complex-number handling applied after the concatenation are outside the
claims and omitted; the function returns the concatenated context tensor. -/
def matrixLayer_forward (g : K → K) {B H d T : ℕ}
    (mn_lr mn_rl mr_lr mr_rl : Fin T → Mats K B H d)
    (mask : Option (MaskT K B T)) (it : String) (nv : Bool) (e : K)
    (use : List String) (rl_lr_matrix_different output_matrices : Bool) :
    Except PyError (ViewTen K T B H × Option (List (Mats K B H d))) := do
  let dict ← available_vectors g mn_lr
    (if rl_lr_matrix_different then mn_rl else mn_lr) mask it nv e use
  let ctx ← lookup_context dict use
  let x ← torch_concatenate ctx
  let mOut :=
    if rl_lr_matrix_different then List.ofFn mr_lr ++ List.ofFn mr_rl
    else List.ofFn mr_lr
  Except.ok (x, if output_matrices then some mOut else none)

/-- C7 is a code bug: selecting the `"local"` context view cannot succeed,
because `available_vectors["local"]` is assigned the 1-tuple `(v_local,)`
(a trailing-comma slip), so `torch.concatenate` receives a tuple element and
raises TypeError; here the forward model is evaluated at the failing input
`use_for_context = ["local"]`. -/
theorem C7_local_selection_fails :
    matrixLayer_forward (K := ℚ) id c3m c3m c3m c3m none "one" false 0
        ["local"] false false =
      Except.error (PyError.typeError "expected Tensor as element in argument 0") := by
  rfl

/-- C10: with `rl_lr_matrix_different = True` and `output_matrices`
requested, a successful forward returns the left-to-right encoder's raw
matrices concatenated with the right-to-left encoder's along the position
axis, so the position dimension of the returned tensor is 2*T. -/
theorem C10_rl_lr_matrices_concat (g : K → K) {B H d T : ℕ}
    (mn_lr mn_rl mr_lr mr_rl : Fin T → Mats K B H d)
    (mask : Option (MaskT K B T)) (it : String) (nv : Bool) (e : K)
    (use : List String) (x : ViewTen K T B H)
    (out : Option (List (Mats K B H d)))
    (h : matrixLayer_forward g mn_lr mn_rl mr_lr mr_rl mask it nv e use
        true true = Except.ok (x, out)) :
    out = some (List.ofFn mr_lr ++ List.ofFn mr_rl) ∧
      out.map List.length = some (2 * T) := by
  rw [matrixLayer_forward] at h
  cases havail : available_vectors g mn_lr
      (if true = true then mn_rl else mn_lr) mask it nv e use with
  | error err =>
    rw [havail] at h
    exact absurd h (by simp [Bind.bind, Except.bind])
  | ok dict =>
    rw [havail] at h
    simp only [Bind.bind, Except.bind] at h
    cases hctx : lookup_context dict use with
    | error err =>
      rw [hctx] at h
      exact absurd h (by simp [Bind.bind, Except.bind])
    | ok ctx =>
      rw [hctx] at h
      simp only [Bind.bind, Except.bind] at h
      cases hcat : torch_concatenate ctx with
      | error err =>
        rw [hcat] at h
        exact absurd h (by simp [Bind.bind, Except.bind])
      | ok x2 =>
        rw [hcat] at h
        simp only [Bind.bind, Except.bind, if_pos rfl, Except.ok.injEq,
          Prod.mk.injEq] at h
        refine ⟨h.2.symm, ?_⟩
        rw [← h.2]
        simp [List.length_append, List.length_ofFn]
        ring

theorem C10_rl_lr_matrices_concat_witness :
    (matrixLayer_forward (K := ℚ) id c3m c3m c3m c3m none "one" false 0
        ["lr"] true true).map (fun p => p.2.map List.length) =
      Except.ok (some 2) := by
  obtain ⟨x, out, hrun⟩ :
      ∃ x out, matrixLayer_forward (K := ℚ) id c3m c3m c3m c3m none "one"
        false 0 ["lr"] true true = Except.ok (x, out) := ⟨_, _, rfl⟩
  obtain ⟨-, hlen⟩ :=
    C10_rl_lr_matrices_concat (K := ℚ) id c3m c3m c3m c3m none "one" false 0
      ["lr"] x out hrun
  rw [hrun]
  simpa [Except.map] using hlen
